import Mathlib

/-!
Verification development for the eztv_downloader repository (`eztv.py`).

The Python source is shallowly embedded: each function that the checked
claims mention is translated into an executable Lean definition, and the
claims are settled as theorems about those definitions.  External
collaborators (HTTP transport, the Transmission RPC sink, the IMDB
scraper, the JSON file store) are modelled as explicit oracles or
explicit state, following the boundaries the code itself draws.
-/

namespace Eztv

/-! ## Basic association-list model of Python dicts

Python `dict`s keep insertion order and have unique keys.  They are
modelled as association lists: lookup returns the first binding,
assignment replaces an existing binding in place or appends a new one at
the end, and deletion removes the binding of the key (removing every
binding with that key, which coincides with `del` on the unique-key
lists that actual dicts produce). -/

def alistGet {K V : Type} [DecidableEq K] (k : K) : List (K × V) → Option V
  | [] => none
  | p :: rest => if p.1 = k then some p.2 else alistGet k rest

def alistSet {K V : Type} [DecidableEq K] (k : K) (v : V) : List (K × V) → List (K × V)
  | [] => [(k, v)]
  | p :: rest => if p.1 = k then (k, v) :: rest else p :: alistSet k v rest

def alistModify {K V : Type} [DecidableEq K] (k : K) (f : V → V) : List (K × V) → List (K × V)
  | [] => []
  | p :: rest => if p.1 = k then (p.1, f p.2) :: alistModify k f rest else p :: alistModify k f rest

def alistErase {K V : Type} [DecidableEq K] (k : K) : List (K × V) → List (K × V)
  | [] => []
  | p :: rest => if p.1 = k then alistErase k rest else p :: alistErase k rest

theorem alistGet_set_self {K V : Type} [DecidableEq K] (k : K) (v : V) :
    ∀ m : List (K × V), alistGet k (alistSet k v m) = some v := by
  intro m
  induction m with
  | nil => simp [alistGet, alistSet]
  | cons p rest ih =>
    by_cases h : p.1 = k
    · simp [alistGet, alistSet, h]
    · simp [alistGet, alistSet, h, ih]

theorem alistGet_set_ne {K V : Type} [DecidableEq K] (k k₀ : K) (v : V)
    (h : k ≠ k₀) : ∀ m : List (K × V), alistGet k (alistSet k₀ v m) = alistGet k m := by
  have hne : ¬ k₀ = k := fun hq => h hq.symm
  intro m
  induction m with
  | nil => simp [alistGet, alistSet, hne]
  | cons p rest ih =>
    by_cases hp : p.1 = k₀
    · have hpk : ¬ p.1 = k := fun hq => h (hq ▸ hp)
      simp [alistGet, alistSet, hp, hne, hpk]
    · simp only [alistSet, if_neg hp, alistGet]
      by_cases hpk : p.1 = k
      · simp [hpk]
      · simp [hpk, ih]

theorem alistGet_modify_self {K V : Type} [DecidableEq K] (k : K) (f : V → V) :
    ∀ m : List (K × V), alistGet k (alistModify k f m) = (alistGet k m).map f := by
  intro m
  induction m with
  | nil => simp [alistGet, alistModify]
  | cons p rest ih =>
    by_cases h : p.1 = k
    · simp [alistGet, alistModify, h]
    · simp [alistGet, alistModify, h, ih]

theorem alistGet_modify_ne {K V : Type} [DecidableEq K] (k k₀ : K) (f : V → V)
    (h : k ≠ k₀) : ∀ m : List (K × V), alistGet k (alistModify k₀ f m) = alistGet k m := by
  intro m
  induction m with
  | nil => simp [alistGet, alistModify]
  | cons p rest ih =>
    have hne : ¬ k₀ = k := fun hq => h hq.symm
    by_cases hp : p.1 = k₀
    · have hpk : ¬ p.1 = k := fun hq => h (hq ▸ hp)
      simp [alistGet, alistModify, hp, hne, hpk, ih]
    · simp only [alistModify, if_neg hp, alistGet]
      by_cases hpk : p.1 = k
      · simp [hpk]
      · simp [hpk, ih]

theorem alistGet_erase_self {K V : Type} [DecidableEq K] (k : K) :
    ∀ m : List (K × V), alistGet k (alistErase k m) = none := by
  intro m
  induction m with
  | nil => simp [alistGet, alistErase]
  | cons p rest ih =>
    by_cases h : p.1 = k
    · simp [alistErase, h, ih]
    · simp [alistGet, alistErase, h, ih]

theorem alistGet_erase_ne {K V : Type} [DecidableEq K] (k k₀ : K)
    (h : k ≠ k₀) : ∀ m : List (K × V), alistGet k (alistErase k₀ m) = alistGet k m := by
  intro m
  induction m with
  | nil => simp [alistGet, alistErase]
  | cons p rest ih =>
    have hne : ¬ k₀ = k := fun hq => h hq.symm
    by_cases hp : p.1 = k₀
    · have hpk : ¬ p.1 = k := fun hq => h (hq ▸ hp)
      simp [alistGet, alistErase, hp, hne, hpk, ih]
    · simp only [alistErase, if_neg hp, alistGet]
      by_cases hpk : p.1 = k
      · simp [hpk]
      · simp [hpk, ih]

/-- Fold preservation: an invariant preserved by every step of a `foldl`
holds of the final accumulator. -/
theorem foldl_preserves {α β : Type} (P : α → Prop) (f : α → β → α)
    (h : ∀ a b, P a → P (f a b)) :
    ∀ (l : List β) (a : α), P a → P (l.foldl f a) := by
  intro l
  induction l with
  | nil => intro a ha; exact ha
  | cons x xs ih => intro a ha; exact ih (f a x) (h a x ha)

/-! ## Torrents and the release selector (`best_torrent_match`)

`eztv.py` lines 241-261.  A torrent (release) carries the fields the
program reads: `filename`, `magnet_url`, `seeds`, `imdb_id`, `season`,
`episode`. -/

structure Torrent where
  filename : String
  magnet_url : String
  seeds : Nat
  imdb_id : String
  season : Nat
  episode : Nat
deriving DecidableEq, Repr

/-- The selected link, `{'filename': ..., 'magnet_link': ...}`. -/
structure BestLink where
  filename : String
  magnet_link : String
deriving DecidableEq, Repr

/-- `needle` is a leading block of `hay` (character-wise). -/
def sub_at_start : List Char → List Char → Bool
  | [], _ => true
  | _ :: _, [] => false
  | a :: as, b :: bs => a == b && sub_at_start as bs

def contains_tok (needle : List Char) : List Char → Bool
  | [] => needle.isEmpty
  | c :: rest => sub_at_start needle (c :: rest) || contains_tok needle rest

/-- The codec preference order of the outer loop (`eztv.py` line 247). -/
def codec_prefs : List String := ["HEVC", "H265", "X265", "H264", "X264"]

/-- The resolution preference order of the inner loop (`eztv.py` line 248). -/
def size_prefs : List String := ["1080P", "720P", "HDTV", "480P"]

/-- `codec in file_name and size in file_name` where
`file_name = x['filename'].upper()` (`eztv.py` lines 250-251). -/
def matchesPair (codec size : String) (t : Torrent) : Bool :=
  let file_name := t.filename.data.map Char.toUpper
  contains_tok codec.data file_name && contains_tok size.data file_name

/-- The innermost loop `for x in torrent_list: if codec in ... and size in ...: return x`:
the first torrent of the list matching the pair. -/
def scan_torrents (codec size : String) (l : List Torrent) : Option Torrent :=
  l.find? (matchesPair codec size)

/-- The middle loop `for size in [...]`. -/
def scan_sizes (codec : String) : List String → List Torrent → Option Torrent
  | [], _ => none
  | s :: rest, l =>
    match scan_torrents codec s l with
    | some t => some t
    | none => scan_sizes codec rest l

/-- The outer loop `for codec in [...]`. -/
def scan_codecs : List String → List Torrent → Option Torrent
  | [], _ => none
  | c :: rest, l =>
    match scan_sizes c size_prefs l with
    | some t => some t
    | none => scan_codecs rest l

/-- Stable insertion into a list sorted by decreasing seeds: the inserted
element (which comes earlier in the input) goes before elements with the
same seed count. -/
def insert_by_seeds (t : Torrent) : List Torrent → List Torrent
  | [] => [t]
  | u :: us => if u.seeds ≤ t.seeds then t :: u :: us else u :: insert_by_seeds t us

/-- `sorted(torrent_list, key=itemgetter('seeds'), reverse=True)`
(`eztv.py` line 257).  Python's `sorted` is a stable sort; with
`reverse=True` it is a stable sort by decreasing key, modelled here by a
stable insertion sort with the same extensional behaviour. -/
def sort_by_seeds_desc : List Torrent → List Torrent
  | [] => []
  | t :: ts => insert_by_seeds t (sort_by_seeds_desc ts)

/-- `best_torrent_match` (`eztv.py` lines 241-261). -/
def best_torrent_match (l : List Torrent) : Option BestLink :=
  match l with
  | [] => none
  | _ :: _ =>
    match scan_codecs codec_prefs l with
    | some t => some { filename := t.filename, magnet_link := t.magnet_url }
    | none =>
      match sort_by_seeds_desc l with
      | [] => none
      | u :: _ => some { filename := u.filename, magnet_link := u.magnet_url }

/-! ### The (codec, resolution) pair order -/

/-- Codec-major flattening of the two preference loops: all resolutions
for the first codec, then all resolutions for the second codec, ... -/
def pairs_of : List String → List (String × String)
  | [] => []
  | c :: cs => size_prefs.map (fun s => (c, s)) ++ pairs_of cs

/-- Scan a flat list of (codec, resolution) pairs; for each pair in order
take the first torrent of the list that matches it. -/
def scan_pairs : List (String × String) → List Torrent → Option Torrent
  | [], _ => none
  | p :: rest, l =>
    match scan_torrents p.1 p.2 l with
    | some t => some t
    | none => scan_pairs rest l

theorem scan_pairs_append (ps qs : List (String × String)) (l : List Torrent) :
    scan_pairs (ps ++ qs) l =
      match scan_pairs ps l with
      | some t => some t
      | none => scan_pairs qs l := by
  induction ps with
  | nil => rfl
  | cons p rest ih =>
    simp only [List.cons_append, scan_pairs]
    cases scan_torrents p.1 p.2 l with
    | some t => rfl
    | none => exact ih

theorem scan_sizes_eq_pairs (c : String) (szs : List String) (l : List Torrent) :
    scan_sizes c szs l = scan_pairs (szs.map (fun s => (c, s))) l := by
  induction szs with
  | nil => rfl
  | cons s rest ih =>
    simp only [List.map_cons, scan_sizes, scan_pairs]
    cases scan_torrents c s l with
    | some t => rfl
    | none => exact ih

theorem scan_codecs_eq_pairs (cs : List String) (l : List Torrent) :
    scan_codecs cs l = scan_pairs (pairs_of cs) l := by
  induction cs with
  | nil => rfl
  | cons c rest ih =>
    simp only [scan_codecs, pairs_of, scan_pairs_append]
    rw [scan_sizes_eq_pairs]
    cases scan_pairs (size_prefs.map (fun s => (c, s))) l with
    | some t => rfl
    | none => exact ih

theorem scan_pairs_find (ps : List (String × String)) (l : List Torrent) :
    scan_pairs ps l =
      match ps.find? (fun q => (scan_torrents q.1 q.2 l).isSome) with
      | some q => scan_torrents q.1 q.2 l
      | none => none := by
  induction ps with
  | nil => rfl
  | cons p rest ih =>
    simp only [scan_pairs, List.find?]
    cases h : scan_torrents p.1 p.2 l with
    | some t => simp [h]
    | none => simp [h, ih]

theorem scan_sizes_none (c : String) (szs : List String) (l : List Torrent)
    (h : ∀ s ∈ szs, ∀ t ∈ l, matchesPair c s t = false) :
    scan_sizes c szs l = none := by
  induction szs with
  | nil => rfl
  | cons s rest ih =>
    have hfind : scan_torrents c s l = none := by
      apply List.find?_eq_none.mpr
      intro t ht hmatch
      have := h s (List.mem_cons_self s rest) t ht
      rw [this] at hmatch
      exact Bool.false_ne_true hmatch
    simp only [scan_sizes, hfind]
    exact ih (fun s' hs' t ht => h s' (List.mem_cons_of_mem _ hs') t ht)

theorem scan_codecs_none (cs : List String) (l : List Torrent)
    (h : ∀ c ∈ cs, ∀ s ∈ size_prefs, ∀ t ∈ l, matchesPair c s t = false) :
    scan_codecs cs l = none := by
  induction cs with
  | nil => rfl
  | cons c rest ih =>
    have hs : scan_sizes c size_prefs l = none :=
      scan_sizes_none c size_prefs l (h c (List.mem_cons_self c rest))
    simp only [scan_codecs, hs]
    exact ih (fun c' hc' => h c' (List.mem_cons_of_mem _ hc'))

/-- The head of the stable descending sort is the first element of the
input with the maximal seed count. -/
theorem sort_head_first_max :
    ∀ l : List Torrent, l ≠ [] →
      ∃ t l₁ l₂, l = l₁ ++ t :: l₂ ∧
        (∀ u ∈ l₁, u.seeds < t.seeds) ∧
        (∀ u ∈ l, u.seeds ≤ t.seeds) ∧
        (sort_by_seeds_desc l).head? = some t := by
  intro l
  induction l with
  | nil => intro h; exact absurd rfl h
  | cons x xs ih =>
    intro _
    cases xs with
    | nil =>
      refine ⟨x, [], [], rfl, ?_, ?_, rfl⟩
      · intro u hu; exact absurd hu (List.not_mem_nil u)
      · intro u hu
        rcases List.mem_singleton.mp hu with rfl
        exact Nat.le_refl _
    | cons y ys =>
      obtain ⟨t, l₁, l₂, heq, hpre, hmax, hhead⟩ := ih (List.cons_ne_nil y ys)
      cases hs : sort_by_seeds_desc (y :: ys) with
      | nil => rw [hs] at hhead; exact absurd hhead (by simp)
      | cons a rest =>
        rw [hs] at hhead
        have ha : a = t := by simpa using hhead
        subst ha
        by_cases hcmp : a.seeds ≤ x.seeds
        · refine ⟨x, [], y :: ys, rfl, ?_, ?_, ?_⟩
          · intro u hu; exact absurd hu (List.not_mem_nil u)
          · intro u hu
            rcases List.mem_cons.mp hu with rfl | hu'
            · exact Nat.le_refl _
            · exact Nat.le_trans (hmax u hu') hcmp
          · rw [show sort_by_seeds_desc (x :: y :: ys) =
                  insert_by_seeds x (sort_by_seeds_desc (y :: ys)) from rfl, hs]
            simp [insert_by_seeds, hcmp]
        · have hlt : x.seeds < a.seeds := Nat.lt_of_not_le hcmp
          refine ⟨a, x :: l₁, l₂, by rw [heq]; rfl, ?_, ?_, ?_⟩
          · intro u hu
            rcases List.mem_cons.mp hu with rfl | hu'
            · exact hlt
            · exact hpre u hu'
          · intro u hu
            rcases List.mem_cons.mp hu with rfl | hu'
            · exact Nat.le_of_lt hlt
            · exact hmax u hu'
          · rw [show sort_by_seeds_desc (x :: y :: ys) =
                  insert_by_seeds x (sort_by_seeds_desc (y :: ys)) from rfl, hs]
            simp [insert_by_seeds, hcmp]

/-- C1: for a non-empty release list, `best_torrent_match` scans codecs as
the outer loop and resolutions as the inner loop (the codec-major pair
order `pairs_of codec_prefs`); for the earliest pair matched by some
release it returns the first release in input order whose uppercased
filename contains both tokens as substrings.  Consequently a release
matching an earlier-preference pair wins over any release matching only
a later-preference pair, regardless of input order. -/
theorem best_match_earliest_pair_first_release (l : List Torrent) (hne : l ≠ [])
    (p : String × String)
    (hp : (pairs_of codec_prefs).find? (fun q => (scan_torrents q.1 q.2 l).isSome) = some p)
    (t : Torrent) (ht : scan_torrents p.1 p.2 l = some t) :
    best_torrent_match l = some { filename := t.filename, magnet_link := t.magnet_url } := by
  have hscan : scan_codecs codec_prefs l = some t := by
    rw [scan_codecs_eq_pairs, scan_pairs_find, hp]
    exact ht
  cases l with
  | nil => exact absurd rfl hne
  | cons x xs => simp [best_torrent_match, hscan]

/-- Witness for C1: the scenario from the specification.  Torrents
`720p.H264` (5 seeds), `1080p.H265` (3 seeds), `480p.X264` (10 seeds):
the `H265`/`1080P` pair is the earliest matching pair, so the 1080p/H265
release is selected despite not being first and having the fewest seeds. -/
def c1w1 : Torrent :=
  { filename := "show.s01e01.720p.H264.mkv", magnet_url := "magnet:w1", seeds := 5,
    imdb_id := "200", season := 1, episode := 1 }

def c1w2 : Torrent :=
  { filename := "show.s01e01.1080p.H265.mkv", magnet_url := "magnet:w2", seeds := 3,
    imdb_id := "200", season := 1, episode := 1 }

def c1w3 : Torrent :=
  { filename := "show.s01e01.480p.X264.mkv", magnet_url := "magnet:w3", seeds := 10,
    imdb_id := "200", season := 1, episode := 1 }

theorem best_match_earliest_pair_first_release_witness :
    best_torrent_match [c1w1, c1w2, c1w3] =
      some { filename := "show.s01e01.1080p.H265.mkv", magnet_link := "magnet:w2" } :=
  best_match_earliest_pair_first_release [c1w1, c1w2, c1w3] (by decide)
    ("H265", "1080P") (by decide) c1w2 (by decide)

/-- C2: when no (codec, resolution) pair from the preference tables
matches any filename of a non-empty release list, `best_torrent_match`
falls back to the release with the maximal seed count, and among several
maximal releases the first in input order is taken: the result is some
`t` splitting the list as `l₁ ++ t :: l₂` with every earlier release
strictly below `t`'s seed count and every release at most `t`'s. -/
theorem best_match_fallback_max_seeds (l : List Torrent) (hne : l ≠ [])
    (hnom : ∀ c ∈ codec_prefs, ∀ s ∈ size_prefs, ∀ t ∈ l, matchesPair c s t = false) :
    ∃ t l₁ l₂, l = l₁ ++ t :: l₂ ∧
      (∀ u ∈ l₁, u.seeds < t.seeds) ∧
      (∀ u ∈ l, u.seeds ≤ t.seeds) ∧
      best_torrent_match l = some { filename := t.filename, magnet_link := t.magnet_url } := by
  obtain ⟨t, l₁, l₂, heq, hpre, hmax, hhead⟩ := sort_head_first_max l hne
  refine ⟨t, l₁, l₂, heq, hpre, hmax, ?_⟩
  have hscan : scan_codecs codec_prefs l = none := scan_codecs_none codec_prefs l hnom
  cases l with
  | nil => exact absurd rfl hne
  | cons x xs =>
    cases hs : sort_by_seeds_desc (x :: xs) with
    | nil => rw [hs] at hhead; exact absurd hhead (by simp)
    | cons a rest =>
      rw [hs] at hhead
      have ha : a = t := by simpa using hhead
      subst ha
      simp [best_torrent_match, hscan, hs]

/-- Witness for C2: the scenario from the specification.  No filename
contains any codec token, so the 9-seed release `b.mkv` (the unique
maximum) is returned. -/
def c2u1 : Torrent :=
  { filename := "a.mkv", magnet_url := "magnet:u1", seeds := 2,
    imdb_id := "201", season := 1, episode := 1 }

def c2u2 : Torrent :=
  { filename := "b.mkv", magnet_url := "magnet:u2", seeds := 9,
    imdb_id := "201", season := 1, episode := 1 }

def c2u3 : Torrent :=
  { filename := "c.mkv", magnet_url := "magnet:u3", seeds := 5,
    imdb_id := "201", season := 1, episode := 1 }

theorem best_match_fallback_max_seeds_witness :
    ∃ t l₁ l₂, ([c2u1, c2u2, c2u3] : List Torrent) = l₁ ++ t :: l₂ ∧
      (∀ u ∈ l₁, u.seeds < t.seeds) ∧
      (∀ u ∈ [c2u1, c2u2, c2u3], u.seeds ≤ t.seeds) ∧
      best_torrent_match [c2u1, c2u2, c2u3] =
        some { filename := t.filename, magnet_link := t.magnet_url } :=
  best_match_fallback_max_seeds [c2u1, c2u2, c2u3] (by decide) (by decide)

/-! ## The feed fetcher (`fetch_eztv_data`, `eztv.py` lines 187-239)

The HTTP transport is an oracle mapping (page, url index, attempt
number) to what `requests.get` does on that call.  A call either throws
a transport exception (`RequestException`) or yields a response with a
status code and a body; `resp.raise_for_status()` throws exactly when
the status is at least 400, and a thrown exception is caught by the
retry loop.  The body either fails to parse as JSON or parses to a
document that may or may not carry a `torrents` array. -/

inductive BodyResult where
  | invalid
  | json (torrents : Option (List Torrent))
deriving DecidableEq, Repr

inductive NetResult where
  | err
  | resp (status : Nat) (body : BodyResult)
deriving DecidableEq, Repr

structure HttpResp where
  status : Nat
  body : BodyResult
deriving DecidableEq, Repr

/-- `REQUEST_MAX_RETRIES = 3` (`eztv.py` line 27). -/
def REQUEST_MAX_RETRIES : Nat := 3

/-- `API_URLS` has two entries (`eztv.py` lines 21-24); the model keeps
their indices. -/
def api_url_indices : List Nat := [0, 1]

/-- The retry loop `for attempt in range(1, REQUEST_MAX_RETRIES + 1)`
(`eztv.py` lines 199-212) at one endpoint: each attempt calls the
oracle; a transport exception or an error status (`raise_for_status`
throws for status >= 400) leaves `resp = None` and retries; a response
with status < 400 is kept and the loop breaks.  The backoff sleep has no
observable effect in the model. -/
def try_attempts (o : Nat → NetResult) : Nat → Nat → Option HttpResp
  | _, 0 => none
  | a, n + 1 =>
    match o a with
    | NetResult.err => try_attempts o (a + 1) n
    | NetResult.resp s b =>
      if 400 ≤ s then try_attempts o (a + 1) n else some { status := s, body := b }

/-- The endpoint loop `for url_index, current_url in enumerate(API_URLS)`
(`eztv.py` lines 198-217): the first endpoint whose retry loop produced
a response wins; otherwise the next endpoint is tried. -/
def try_urls (o : Nat → Nat → NetResult) : List Nat → Option HttpResp
  | [] => none
  | u :: rest =>
    match try_attempts (o u) 1 REQUEST_MAX_RETRIES with
    | some r => some r
    | none => try_urls o rest

/-- The page loop of `fetch_eztv_data` (`eztv.py` lines 194-239):
`resp is None` skips the page (`continue`); `status == 404` returns the
accumulated torrents; another non-200 status skips the page; a JSON
parse failure skips the page; a parsed body contributes its `torrents`
array, if any, to the accumulator. -/
def fetch_pages (o : Nat → Nat → Nat → NetResult) : List Nat → List Torrent → List Torrent
  | [], acc => acc
  | p :: ps, acc =>
    match try_urls (o p) api_url_indices with
    | none => fetch_pages o ps acc
    | some r =>
      if r.status = 404 then acc
      else if r.status ≠ 200 then fetch_pages o ps acc
      else
        match r.body with
        | BodyResult.invalid => fetch_pages o ps acc
        | BodyResult.json none => fetch_pages o ps acc
        | BodyResult.json (some ts) => fetch_pages o ps (acc ++ ts)

/-- `fetch_eztv_data(page_count)` iterates pages `0 .. page_count - 1`
starting from an empty torrent list. -/
def fetch_eztv_data (o : Nat → Nat → Nat → NetResult) (page_count : Nat) : List Torrent :=
  fetch_pages o (List.range page_count) []

/-- Any response surviving the retry loop has status < 400, because
`raise_for_status` throws for every status >= 400: the `404` check of
the page loop can never see a 404 response. -/
theorem try_attempts_status_lt_400 (o : Nat → NetResult) :
    ∀ a n r, try_attempts o a n = some r → r.status < 400 := by
  intro a n
  induction n generalizing a with
  | zero => intro r h; exact absurd h (by simp [try_attempts])
  | succ n ih =>
    intro r h
    simp only [try_attempts] at h
    cases ho : o a with
    | err => rw [ho] at h; exact ih (a + 1) r h
    | resp s b =>
      rw [ho] at h
      have h' : (if 400 ≤ s then try_attempts o (a + 1) n
          else some { status := s, body := b }) = some r := h
      by_cases hs : 400 ≤ s
      · rw [if_pos hs] at h'; exact ih (a + 1) r h'
      · rw [if_neg hs] at h'
        have hr : r = { status := s, body := b } := by
          simpa using h'.symm
        rw [hr]
        exact Nat.lt_of_not_le hs

/-- Torrents used by the C3 failing input. -/
def c3tA : Torrent :=
  { filename := "A.S01E01.1080p.HEVC.mkv", magnet_url := "magnet:a", seeds := 10,
    imdb_id := "100", season := 1, episode := 1 }

def c3tC : Torrent :=
  { filename := "C.S01E03.1080p.HEVC.mkv", magnet_url := "magnet:c", seeds := 7,
    imdb_id := "100", season := 1, episode := 3 }

/-- The C3 failing input: page 0 answers 200 with one torrent, page 1
answers 404 on every endpoint and attempt, page 2 answers 200 with one
torrent. -/
def c3_oracle (page : Nat) : Nat → Nat → NetResult :=
  fun _ _ =>
    if page = 0 then NetResult.resp 200 (BodyResult.json (some [c3tA]))
    else if page = 1 then NetResult.resp 404 BodyResult.invalid
    else NetResult.resp 200 (BodyResult.json (some [c3tC]))

/-- C3 (code bug): the claim (and the code's own unreachable
`status_code == 404` branch) says a not-found page terminates fetching,
so this three-page run should return only the torrents of page 0.  In
fact `raise_for_status` throws on the 404 before the check, retries are
exhausted on both endpoints, the page is merely skipped, and fetching
continues with page 2: the run returns the torrents of pages 0 and 2. -/
theorem fetch_not_found_does_not_terminate :
    fetch_eztv_data c3_oracle 3 = [c3tA, c3tC] ∧
      fetch_eztv_data c3_oracle 3 ≠ [c3tA] := by
  constructor
  · decide
  · decide

/-! ## The cache document

The persisted document in its current (v2) shape: an optional `version`
number and an optional `shows` mapping (`shows` is absent on a freshly
initialized `{}` cache).  A show entry carries the fields `add_shows`
creates (`eztv.py` lines 179-184): url, title, seasons, status, with
seasons mapping a season number to an episode-number-to-magnet-link
mapping.  The embedding assumes entries carry url and title, as
`add_shows` creates them. -/

structure ShowEntry where
  url : String
  title : String
  seasons : List (Nat × List (Nat × String))
  status : String
deriving DecidableEq, Repr

abbrev Shows := List (String × ShowEntry)

structure CacheDoc where
  version : Option Int
  shows : Option Shows
deriving DecidableEq, Repr

/-- The empty dict `{}` that `read_cache` returns for a missing file:
no `version` key, no `shows` key. -/
def emptyCacheDoc : CacheDoc := { version := none, shows := none }

/-- Python exceptions observable in the embedded operations. -/
inductive PyErr where
  | keyError
deriving DecidableEq, Repr

/-! ## Persistence (`read_cache` / `write_cache`, `eztv.py` lines 62-87)

Both use the single fixed path `~/.eztv/downloader.json`.  JSON
(de)serialization lives in Python's `json` module, outside this
repository; following the specification, which treats file persistence
as a whole-document blob store, the file system is a mapping from paths
to stored documents, `json.dump` stores the document whole and
`json.load` returns it (I/O failures, which make `write_cache` return
`False`, are outside the embedding). -/

abbrev FileStore := List (String × CacheDoc)

def eztv_cache_path : String := ".eztv/downloader.json"

/-- `write_cache(data)`: whole-document write to the fixed path,
returning `True` on success. -/
def write_cache (fs : FileStore) (d : CacheDoc) : FileStore × Bool :=
  (alistSet eztv_cache_path d fs, true)

/-- `read_cache()`: the parsed file at the fixed path if it exists,
otherwise the freshly initialized `{}`. -/
def read_cache (fs : FileStore) : CacheDoc :=
  match alistGet eztv_cache_path fs with
  | some d => d
  | none => emptyCacheDoc

/-- C9: writing a document and reading it back yields an equal document. -/
theorem write_read_round_trip (fs : FileStore) (d : CacheDoc) :
    read_cache (write_cache fs d).1 = d := by
  unfold read_cache write_cache
  rw [alistGet_set_self]

/-! ## Show id normalization (`add_shows`, `eztv.py` line 170)

`re.sub(r'^(vv|)(\d+)$', r'\2', imdb_id, flags=re.IGNORECASE)`: the
anchored pattern matches the whole id either as a case-insensitive
literal `vv` followed by one or more digits (the substitution keeps the
digits), or, via the empty alternative, as digits only (the
substitution replaces the id with itself).  If the pattern does not
match, the id is unchanged.  The two alternatives cannot both apply, so
the net effect is: strip a leading `vv` from an id of shape
`vv<digits>`, leave every other id unchanged. -/

def isVChar (c : Char) : Bool := c == 'v' || c == 'V'

/-- Whole-string match of the `vv`-branch of the pattern: two
case-insensitive `v`s followed by one or more digits. -/
def vv_digits_form : List Char → Bool
  | a :: b :: rest => isVChar a && isVChar b && !rest.isEmpty && rest.all Char.isDigit
  | _ => false

def normalize_show_id (s : List Char) : List Char :=
  if vv_digits_form s then s.drop 2 else s

def normalize_show_id_str (s : String) : String :=
  String.mk (normalize_show_id s.data)

/-- C6: the normalization maps every id consisting of a leading `vv`
(case-insensitive) followed by one or more digits to those digits
alone, and leaves every other id — in particular a single leading `v`
followed by digits — unchanged. -/
theorem normalize_strips_exactly_double_v (s : List Char) :
    (∀ a b rest, s = a :: b :: rest → isVChar a = true → isVChar b = true →
        rest ≠ [] → rest.all Char.isDigit = true → normalize_show_id s = rest) ∧
      (vv_digits_form s = false → normalize_show_id s = s) := by
  constructor
  · intro a b rest hs ha hb hne hdig
    subst hs
    have hform : vv_digits_form (a :: b :: rest) = true := by
      cases rest with
      | nil => exact absurd rfl hne
      | cons c cs => simp [vv_digits_form, ha, hb, hdig]
    simp [normalize_show_id, hform]
  · intro hform
    simp [normalize_show_id, hform]

/-- Witness for C6: `vv0944947` is stripped to `0944947`, while the
single-`v` id `v0944947` and the plain id `0944947` are unchanged. -/
theorem normalize_strips_exactly_double_v_witness :
    normalize_show_id "vv0944947".data = "0944947".data ∧
      normalize_show_id "v0944947".data = "v0944947".data ∧
      normalize_show_id "0944947".data = "0944947".data :=
  ⟨(normalize_strips_exactly_double_v "vv0944947".data).1 'v' 'v' "0944947".data
      (by decide) (by decide) (by decide) (by decide) (by decide),
    (normalize_strips_exactly_double_v "v0944947".data).2 (by decide),
    (normalize_strips_exactly_double_v "0944947".data).2 (by decide)⟩

/-! ## `purge_shows` (`eztv.py` lines 137-148)

For each given id the loop tests `imdb_id in cache_dict['shows']`
(raising `KeyError` when the `shows` key is absent) and deletes the
binding when present; when anything was deleted the function itself
calls `write_cache` on the updated document before returning the flag.
The result is the updated document, the `purged_something` flag, and
the document passed to the internal `write_cache` call (`none` when no
write happened). -/

def purge_step (st : Shows × Bool) (id : String) : Shows × Bool :=
  if (alistGet id st.1).isSome then (alistErase id st.1, true) else st

def purge_shows (doc : CacheDoc) (ids : List String) :
    Except PyErr (CacheDoc × Bool × Option CacheDoc) :=
  if ids.isEmpty then Except.ok (doc, false, none)
  else
    match doc.shows with
    | none => Except.error PyErr.keyError
    | some m =>
      let res := ids.foldl purge_step (m, false)
      let doc2 : CacheDoc := { doc with shows := some res.1 }
      Except.ok (doc2, res.2, if res.2 then some doc2 else none)

/-- Absent keys stay absent through the purge fold (nothing is added). -/
theorem purge_fold_keeps_absent (id : String) :
    ∀ (ids : List String) (st : Shows × Bool), alistGet id st.1 = none →
      alistGet id (ids.foldl purge_step st).1 = none := by
  intro ids
  induction ids with
  | nil => intro st h; exact h
  | cons a rest ih =>
    intro st h
    apply ih
    unfold purge_step
    by_cases ha : (alistGet a st.1).isSome
    · rw [if_pos ha]
      by_cases hid : id = a
      · subst hid; exact alistGet_erase_self id st.1
      · rw [alistGet_erase_ne id a hid st.1]; exact h
    · rw [if_neg ha]; exact h

/-- Every id in the purged list is absent afterwards. -/
theorem purge_fold_removes (ids : List String) :
    ∀ (st : Shows × Bool) (id : String), id ∈ ids →
      alistGet id (ids.foldl purge_step st).1 = none := by
  induction ids with
  | nil => intro st id h; exact absurd h (List.not_mem_nil id)
  | cons a rest ih =>
    intro st id h
    rcases List.mem_cons.mp h with rfl | hmem
    · simp only [List.foldl_cons]
      apply purge_fold_keeps_absent
      unfold purge_step
      by_cases ha : (alistGet id st.1).isSome
      · rw [if_pos ha]; exact alistGet_erase_self id st.1
      · rw [if_neg ha]
        cases hg : alistGet id st.1 with
        | none => rfl
        | some v => rw [hg] at ha; exact absurd rfl ha
    · exact ih (purge_step st a) id hmem

/-- Keys outside the purged list are untouched. -/
theorem purge_fold_keeps_others (ids : List String) :
    ∀ (st : Shows × Bool) (id : String), id ∉ ids →
      alistGet id (ids.foldl purge_step st).1 = alistGet id st.1 := by
  induction ids with
  | nil => intro st id _; rfl
  | cons a rest ih =>
    intro st id h
    have hne : id ≠ a := fun hq => h (hq ▸ List.mem_cons_self a rest)
    have hrest : id ∉ rest := fun hq => h (List.mem_cons_of_mem a hq)
    simp only [List.foldl_cons]
    rw [ih (purge_step st a) id hrest]
    unfold purge_step
    by_cases ha : (alistGet a st.1).isSome
    · rw [if_pos ha]; exact alistGet_erase_ne id a hne st.1
    · rw [if_neg ha]

/-- Once set, the purged flag stays. -/
theorem purge_fold_flag_mono (ids : List String) :
    ∀ m : Shows, (ids.foldl purge_step (m, true)).2 = true := by
  induction ids with
  | nil => intro m; rfl
  | cons a rest ih =>
    intro m
    simp only [List.foldl_cons]
    unfold purge_step
    by_cases ha : (alistGet a m).isSome
    · rw [if_pos ha]; exact ih (alistErase a m)
    · rw [if_neg ha]; exact ih m

/-- The purged flag is set exactly when some given id was present. -/
theorem purge_fold_flag (ids : List String) :
    ∀ m : Shows, (ids.foldl purge_step (m, false)).2 =
      ids.any (fun id => (alistGet id m).isSome) := by
  induction ids with
  | nil => intro m; rfl
  | cons a rest ih =>
    intro m
    simp only [List.foldl_cons, List.any_cons]
    by_cases ha : (alistGet a m).isSome
    · rw [show purge_step (m, false) a = (alistErase a m, true) from by
        unfold purge_step; rw [if_pos ha]]
      rw [purge_fold_flag_mono rest (alistErase a m), ha, Bool.true_or]
    · rw [show purge_step (m, false) a = (m, false) from by
        unfold purge_step; rw [if_neg ha]]
      rw [ih m]
      cases hg : alistGet a m with
      | none => simp
      | some v => rw [hg] at ha; exact absurd rfl ha

/-- C7 counterexample: the claim says `purge` — like every
SubscriptionManager operation — mutates only the in-memory document and
leaves persistence to the caller.  On a concrete document, purging a
present id makes `purge_shows` itself pass the updated document to
`write_cache` (third component `some ...`): persistence is not left to
the caller. -/
def c7_entry : ShowEntry :=
  { url := "https://www.imdb.com/title/tt0123456/", title := "Some Show",
    seasons := [], status := "active" }

def c7_doc : CacheDoc := { version := some 2, shows := some [("0123456", c7_entry)] }

theorem purge_persists_itself_counterexample :
    purge_shows c7_doc ["0123456"] =
      Except.ok ({ version := some 2, shows := some [] }, true,
        some { version := some 2, shows := some [] }) := by
  rfl

/-- C7 (amended): `purge_shows` deletes the Show entry for each id
present in the document, leaves other entries unchanged, returns
whether any deletion occurred — and, unlike the other subscription
operations, itself persists the updated document (calls `write_cache`)
exactly when a deletion occurred, rather than leaving persistence to
the caller. -/
theorem purge_deletes_reports_and_persists (doc : CacheDoc) (m : Shows)
    (hm : doc.shows = some m) (ids : List String) :
    ∃ res : CacheDoc × Bool × Option CacheDoc,
      purge_shows doc ids = Except.ok res ∧
      (∃ m', res.1.shows = some m' ∧
        (∀ id ∈ ids, alistGet id m' = none) ∧
        (∀ id, id ∉ ids → alistGet id m' = alistGet id m)) ∧
      (res.2.1 = true ↔ ∃ id ∈ ids, (alistGet id m).isSome = true) ∧
      res.2.2 = (if res.2.1 = true then some res.1 else none) := by
  unfold purge_shows
  cases ids with
  | nil =>
    refine ⟨(doc, false, none), by rfl, ⟨m, hm, ?_, ?_⟩, ?_, ?_⟩
    · intro id h; exact absurd h (List.not_mem_nil id)
    · intro id _; rfl
    · simp
    · simp
  | cons a rest =>
    rw [if_neg (by simp), hm]
    refine ⟨_, rfl, ⟨((a :: rest).foldl purge_step (m, false)).1, rfl, ?_, ?_⟩, ?_, ?_⟩
    · intro id h; exact purge_fold_removes (a :: rest) (m, false) id h
    · intro id h; exact purge_fold_keeps_others (a :: rest) (m, false) id h
    · rw [purge_fold_flag (a :: rest) m]
      simp [List.any_eq_true]
    · rfl

/-- Witness for the amended C7: on the concrete document, the id is
deleted, the flag is set, and the updated document is what the internal
`write_cache` call received. -/
theorem purge_deletes_reports_and_persists_witness :
    ∃ res : CacheDoc × Bool × Option CacheDoc,
      purge_shows c7_doc ["0123456"] = Except.ok res ∧
      (∃ m', res.1.shows = some m' ∧
        (∀ id ∈ ["0123456"], alistGet id m' = none) ∧
        (∀ id, id ∉ ["0123456"] → alistGet id m' = alistGet id [("0123456", c7_entry)])) ∧
      (res.2.1 = true ↔ ∃ id ∈ ["0123456"], (alistGet id [("0123456", c7_entry)]).isSome = true) ∧
      res.2.2 = (if res.2.1 = true then some res.1 else none) :=
  purge_deletes_reports_and_persists c7_doc [("0123456", c7_entry)] rfl ["0123456"]

/-! ## `add_shows` (`eztv.py` lines 167-185)

`get_imdb_meta` is an external lookup, modelled as an oracle from an id
to `some` title/url metadata or `none` (the `False` the Python function
returns on failure).  For each id: normalize it, skip it when already
present in `cache_dict['shows']` (this access raises `KeyError` when
the `shows` key is absent), skip it when the metadata lookup fails, and
otherwise insert a new entry with empty seasons and active status. -/

structure ImdbMeta where
  title : String
  url : String
deriving DecidableEq, Repr

def add_step (meta : String → Option ImdbMeta) (m : Shows) (rawId : String) : Shows :=
  let id := normalize_show_id_str rawId
  if (alistGet id m).isSome then m
  else
    match meta id with
    | none => m
    | some md =>
      alistSet id { url := md.url, title := md.title, seasons := [], status := "active" } m

def add_shows (doc : CacheDoc) (ids : List String) (meta : String → Option ImdbMeta) :
    Except PyErr CacheDoc :=
  if ids.isEmpty then Except.ok doc
  else
    match doc.shows with
    | none => Except.error PyErr.keyError
    | some m => Except.ok { doc with shows := some (ids.foldl (add_step meta) m) }

/-! ## Migration (`convert_cache`, `eztv.py` lines 116-135)

`convert_cache` inspects the raw loaded JSON document, whose top-level
keys in the legacy format are show ids mapped to season data, so the
document is modelled as a raw JSON object: an association list of keys
to JSON values.  When the `version` key is absent or its numeric value
is below 2, a fresh `{'version': 2, 'shows': {...}}` document is built,
moving each old top-level value wholesale into the new `seasons` slot
(url/title only when the metadata lookup succeeds, status defaulted to
`active`); otherwise the function returns `None` ("already current").
Comparing a non-numeric `version` value with 2 would raise a
`TypeError` in Python, modelled as the `Except.error` case. -/

inductive JVal where
  | num (n : Int)
  | str (s : String)
  | obj (fields : List (String × JVal))

abbrev RawDoc := List (String × JVal)

def convert_entry (meta : String → Option ImdbMeta) (kv : String × JVal) : String × JVal :=
  let metaFields : List (String × JVal) :=
    match meta kv.1 with
    | some md => [("url", JVal.str md.url), ("title", JVal.str md.title)]
    | none => []
  (kv.1, JVal.obj (metaFields ++ [("status", JVal.str "active"), ("seasons", kv.2)]))

def convert_rebuild (meta : String → Option ImdbMeta) (cache : RawDoc) : RawDoc :=
  [("version", JVal.num 2), ("shows", JVal.obj (cache.map (convert_entry meta)))]

def convert_cache (meta : String → Option ImdbMeta) (cache : RawDoc) :
    Except Unit (Option RawDoc) :=
  match alistGet "version" cache with
  | none => Except.ok (some (convert_rebuild meta cache))
  | some (JVal.num v) =>
    if v < 2 then Except.ok (some (convert_rebuild meta cache)) else Except.ok none
  | some (JVal.str _) => Except.error ()
  | some (JVal.obj _) => Except.error ()

theorem convert_rebuild_version (meta : String → Option ImdbMeta) (cache : RawDoc) :
    alistGet "version" (convert_rebuild meta cache) = some (JVal.num 2) := by
  rfl

/-- C8: migration is idempotent-once.  On a document lacking a version
marker or carrying a numeric version below 2 it produces a document
whose version marker is 2; on a document whose numeric version is at
least 2 it is a no-op (`None`); and whenever a first run produced a
document, a second run on that document is a no-op, so the version
marker is unchanged after the first run. -/
theorem convert_cache_idempotent_once (meta : String → Option ImdbMeta) (cache : RawDoc) :
    ((alistGet "version" cache = none ∨
        ∃ v : Int, alistGet "version" cache = some (JVal.num v) ∧ v < 2) →
      ∃ c', convert_cache meta cache = Except.ok (some c') ∧
        alistGet "version" c' = some (JVal.num 2)) ∧
    (∀ v : Int, alistGet "version" cache = some (JVal.num v) → 2 ≤ v →
      convert_cache meta cache = Except.ok none) ∧
    (∀ c', convert_cache meta cache = Except.ok (some c') →
      ∀ meta2, convert_cache meta2 c' = Except.ok none) := by
  refine ⟨?_, ?_, ?_⟩
  · intro h
    rcases h with h | ⟨v, hv, hlt⟩
    · exact ⟨convert_rebuild meta cache, by rw [convert_cache, h], convert_rebuild_version meta cache⟩
    · refine ⟨convert_rebuild meta cache, ?_, convert_rebuild_version meta cache⟩
      rw [convert_cache, hv]
      show (if v < 2 then Except.ok (some (convert_rebuild meta cache))
          else Except.ok (none : Option RawDoc)) =
        Except.ok (some (convert_rebuild meta cache))
      rw [if_pos hlt]
  · intro v hv hge
    rw [convert_cache, hv]
    show (if v < 2 then Except.ok (some (convert_rebuild meta cache))
        else Except.ok (none : Option RawDoc)) = Except.ok none
    rw [if_neg (Int.not_lt.mpr hge)]
  · intro c' hc' meta2
    have hcr : c' = convert_rebuild meta cache := by
      rw [convert_cache] at hc'
      cases hg : alistGet "version" cache with
      | none =>
        rw [hg] at hc'
        cases hc'
        rfl
      | some jv =>
        cases jv with
        | num v =>
          rw [hg] at hc'
          have hc2 : (if v < 2 then Except.ok (some (convert_rebuild meta cache))
              else Except.ok (none : Option RawDoc)) = Except.ok (some c') := hc'
          by_cases hlt : v < 2
          · rw [if_pos hlt] at hc2
            cases hc2
            rfl
          · rw [if_neg hlt] at hc2
            cases hc2
        | str s =>
          rw [hg] at hc'
          cases hc'
        | obj fs =>
          rw [hg] at hc'
          cases hc'
    subst hcr
    rw [convert_cache, convert_rebuild_version meta cache]
    show (if (2 : Int) < 2 then Except.ok (some (convert_rebuild meta2 (convert_rebuild meta cache)))
        else Except.ok (none : Option RawDoc)) = Except.ok none
    rw [if_neg (by omega : ¬ (2 : Int) < 2)]

/-- Witness for C8: a legacy flat document (no version marker) converts
to a version-2 document, and a second run on the result is a no-op. -/
def c8_cache : RawDoc := [("0123456", JVal.obj [("1", JVal.obj [])])]

theorem convert_cache_idempotent_once_witness :
    ∃ c', convert_cache (fun _ => none) c8_cache = Except.ok (some c') ∧
      alistGet "version" c' = some (JVal.num 2) :=
  (convert_cache_idempotent_once (fun _ => none) c8_cache).1 (Or.inl (by rfl))

/-! ## The download orchestration loop (`main`, `eztv.py` lines 309-337)

The loop walks the shows of the document, and for each active,
in-scope show walks the seasons and episodes occurring for it in the
fetched feed data, selecting and submitting a release for each episode
not yet recorded.  Two effects leave the pure state: running the
release selector and submitting a magnet link to the Transmission sink
(`tc.add_torrent`); both are recorded as trace events tagged with the
(show, season, episode) iteration position at which they occur.  The
`set(...)` comprehensions iterate in an unspecified hash order; the
model uses first-occurrence order (`dedup`), and the proved invariants
do not depend on the order. -/

inductive OrchEvent where
  | selected (id : String) (season episode : Nat)
  | submitted (id : String) (season episode : Nat) (link : String)
deriving DecidableEq, Repr

def eventShowId : OrchEvent → String
  | OrchEvent.selected id _ _ => id
  | OrchEvent.submitted id _ _ _ => id

def eventEpisodeKey : OrchEvent → String × Nat × Nat
  | OrchEvent.selected id sn ep => (id, sn, ep)
  | OrchEvent.submitted id sn ep _ => (id, sn, ep)

structure OrchState where
  shows : Shows
  events : List OrchEvent
  cache_update : Bool
deriving Repr

/-- `torrents_by_key[(imdb_id, season, episode)]` (`eztv.py` lines
313-316): the feed torrents with the given key, in feed order. -/
def torrents_for_key (data : List Torrent) (id : String) (sn ep : Nat) : List Torrent :=
  data.filter (fun t => t.imdb_id == id && t.season == sn && t.episode == ep)

/-- `set([x['season'] for x in eztv_data if x['imdb_id'] == imdb_id])`
(`eztv.py` line 325), iterated in first-occurrence order. -/
def seasons_in_feed (data : List Torrent) (id : String) : List Nat :=
  ((data.filter (fun t => t.imdb_id == id)).map (fun t => t.season)).dedup

/-- `set([x['episode'] for x in eztv_data if x['imdb_id'] == imdb_id and
x['season'] == season])` (`eztv.py` line 329). -/
def episodes_in_feed (data : List Torrent) (id : String) (sn : Nat) : List Nat :=
  ((data.filter (fun t => t.imdb_id == id && t.season == sn)).map (fun t => t.episode)).dedup

/-- `cache_dict['shows'][id]['seasons'][sn][ep]`, as far as it exists. -/
def lookupEpisode (m : Shows) (id : String) (sn ep : Nat) : Option String :=
  match alistGet id m with
  | none => none
  | some sh =>
    match alistGet sn sh.seasons with
    | none => none
    | some eps => alistGet ep eps

/-- `cache_dict['shows'][id]['seasons'][sn][ep] = link` (`eztv.py`
line 335); the show and season entries exist at every call site. -/
def setEpisode (m : Shows) (id : String) (sn ep : Nat) (link : String) : Shows :=
  alistModify id
    (fun sh => { sh with seasons := alistModify sn (alistSet ep link) sh.seasons }) m

/-- `cache_dict['shows'][id]['seasons'][sn] = {}` (`eztv.py` line 327). -/
def ensureSeason (m : Shows) (id : String) (sn : Nat) : Shows :=
  alistModify id (fun sh => { sh with seasons := alistSet sn [] sh.seasons }) m

/-- The episode body (`eztv.py` lines 329-337): skip an episode already
recorded; otherwise run the selector on the torrents of the key and, if
it returned a link, submit it and record it.  The `none` fallbacks of
the two lookups are unreachable at the call sites (the show is iterated
from the map, the season was just ensured). -/
def processEpisode (data : List Torrent) (id : String) (sn : Nat)
    (st : OrchState) (ep : Nat) : OrchState :=
  match alistGet id st.shows with
  | none => st
  | some sh =>
    match alistGet sn sh.seasons with
    | none => st
    | some eps =>
      if (alistGet ep eps).isSome then st
      else
        match best_torrent_match (torrents_for_key data id sn ep) with
        | none => { st with events := st.events ++ [OrchEvent.selected id sn ep] }
        | some bl =>
          { shows := setEpisode st.shows id sn ep bl.magnet_link,
            events := st.events ++
              [OrchEvent.selected id sn ep, OrchEvent.submitted id sn ep bl.magnet_link],
            cache_update := true }

/-- The season body (`eztv.py` lines 325-337): ensure the season entry
exists, then walk the episodes of the feed for this (show, season). -/
def processSeason (data : List Torrent) (id : String)
    (st : OrchState) (sn : Nat) : OrchState :=
  let st1 :=
    match alistGet id st.shows with
    | none => st
    | some sh =>
      if (alistGet sn sh.seasons).isSome then st
      else { st with shows := ensureSeason st.shows id sn }
  (episodes_in_feed data id sn).foldl (processEpisode data id sn) st1

/-- The show body (`eztv.py` lines 318-337): skip inactive shows and,
when `--only` was supplied, shows outside the filter; otherwise walk the
seasons of the feed for this show. -/
def processShow (only : Option (List String)) (data : List Torrent)
    (st : OrchState) (id : String) : OrchState :=
  match alistGet id st.shows with
  | none => st
  | some sh =>
    if sh.status ≠ "active" then st
    else if (match only with | none => false | some l => !(l.contains id)) then st
    else (seasons_in_feed data id).foldl (processSeason data id) st

/-- The whole loop `for imdb_id in cache_dict['shows']` (`eztv.py`
line 318): accessing the `shows` key of a document lacking it raises
`KeyError`; otherwise the keys of the mapping are iterated in order.
`main` runs this loop directly on the document `read_cache` returned —
it never invokes `convert_cache` first. -/
def download_loop (only : Option (List String)) (data : List Torrent)
    (doc : CacheDoc) : Except PyErr OrchState :=
  match doc.shows with
  | none => Except.error PyErr.keyError
  | some m =>
    Except.ok ((m.map (fun p => p.1)).foldl (processShow only data)
      { shows := m, events := [], cache_update := false })

/-! ### C4: episodes already recorded are never touched -/

/-- The C4 invariant: the stored link of (id, sn, ep) is intact and no
trace event was emitted at that iteration position. -/
def epUntouched (id : String) (sn ep : Nat) (link : String) (st : OrchState) : Prop :=
  lookupEpisode st.shows id sn ep = some link ∧
    ∀ e ∈ st.events, eventEpisodeKey e ≠ (id, sn, ep)

theorem lookupEpisode_setEpisode_ne (m : Shows) (id' : String) (sn' ep' : Nat) (link' : String)
    (id : String) (sn ep : Nat) (h : ¬ (id' = id ∧ sn' = sn ∧ ep' = ep)) :
    lookupEpisode (setEpisode m id' sn' ep' link') id sn ep = lookupEpisode m id sn ep := by
  unfold lookupEpisode setEpisode
  by_cases hid : id' = id
  · subst hid
    rw [alistGet_modify_self]
    cases hgm : alistGet id' m with
    | none => rfl
    | some sh =>
      simp only [Option.map_some']
      by_cases hsn : sn' = sn
      · subst hsn
        show (match alistGet sn' (alistModify sn' (alistSet ep' link') sh.seasons) with
            | none => none
            | some eps => alistGet ep eps) =
          (match alistGet sn' sh.seasons with
            | none => none
            | some eps => alistGet ep eps)
        rw [alistGet_modify_self]
        cases hgs : alistGet sn' sh.seasons with
        | none => rfl
        | some eps =>
          simp only [Option.map_some']
          have hep : ep ≠ ep' := fun hq => h ⟨rfl, rfl, hq.symm⟩
          exact alistGet_set_ne ep ep' link' hep eps
      · show (match alistGet sn (alistModify sn' (alistSet ep' link') sh.seasons) with
            | none => none
            | some eps => alistGet ep eps) =
          (match alistGet sn sh.seasons with
            | none => none
            | some eps => alistGet ep eps)
        rw [alistGet_modify_ne sn sn' _ (fun hq => hsn hq.symm)]
  · rw [alistGet_modify_ne id id' _ (fun hq => hid hq.symm)]

theorem processEpisode_epUntouched (data : List Torrent) (id : String) (sn ep : Nat)
    (link : String) (id' : String) (sn' : Nat) (st : OrchState) (ep' : Nat)
    (h : epUntouched id sn ep link st) :
    epUntouched id sn ep link (processEpisode data id' sn' st ep') := by
  obtain ⟨h1, h2⟩ := h
  unfold processEpisode
  split
  · exact ⟨h1, h2⟩
  · rename_i sh hg
    split
    · exact ⟨h1, h2⟩
    · rename_i eps hs
      split
      · exact ⟨h1, h2⟩
      · rename_i hin
        have hkey : ¬ (id' = id ∧ sn' = sn ∧ ep' = ep) := by
          rintro ⟨rfl, rfl, rfl⟩
          unfold lookupEpisode at h1
          rw [hg] at h1
          have h1' : (match alistGet sn' sh.seasons with
              | none => none
              | some eps => alistGet ep' eps) = some link := h1
          rw [hs] at h1'
          have h1'' : alistGet ep' eps = some link := h1'
          rw [h1''] at hin
          exact hin rfl
        have hkeyt : ∀ q : String × Nat × Nat, q = (id', sn', ep') → q ≠ (id, sn, ep) := by
          rintro q rfl hq
          apply hkey
          have h₁ : id' = id := congrArg Prod.fst hq
          have h₂ : sn' = sn := congrArg (fun r => r.2.1) hq
          have h₃ : ep' = ep := congrArg (fun r => r.2.2) hq
          exact ⟨h₁, h₂, h₃⟩
        split
        · refine ⟨h1, ?_⟩
          intro e he
          rcases List.mem_append.mp he with hm | hm
          · exact h2 e hm
          · rcases List.mem_singleton.mp hm with rfl
            exact hkeyt _ rfl
        · rename_i bl hb
          refine ⟨?_, ?_⟩
          · show lookupEpisode (setEpisode st.shows id' sn' ep' bl.magnet_link) id sn ep = some link
            rw [lookupEpisode_setEpisode_ne st.shows id' sn' ep' bl.magnet_link id sn ep hkey]
            exact h1
          · intro e he
            rcases List.mem_append.mp he with hm | hm
            · exact h2 e hm
            · rcases List.mem_cons.mp hm with rfl | hm'
              · exact hkeyt _ rfl
              · rcases List.mem_singleton.mp hm' with rfl
                exact hkeyt _ rfl

theorem processSeason_epUntouched (data : List Torrent) (id : String) (sn ep : Nat)
    (link : String) (id' : String) (st : OrchState) (sn' : Nat)
    (h : epUntouched id sn ep link st) :
    epUntouched id sn ep link (processSeason data id' st sn') := by
  obtain ⟨h1, h2⟩ := h
  unfold processSeason
  apply foldl_preserves (epUntouched id sn ep link) (processEpisode data id' sn')
    (fun a b ha => processEpisode_epUntouched data id sn ep link id' sn' a b ha)
  split
  · exact ⟨h1, h2⟩
  · rename_i sh hg
    split
    · exact ⟨h1, h2⟩
    · rename_i hin
      refine ⟨?_, h2⟩
      show lookupEpisode (ensureSeason st.shows id' sn') id sn ep = some link
      unfold ensureSeason
      by_cases hid : id' = id
      · subst hid
        unfold lookupEpisode at h1 ⊢
        rw [alistGet_modify_self, hg]
        rw [hg] at h1
        simp only [Option.map_some']
        have h1' : (match alistGet sn sh.seasons with
            | none => none
            | some eps => alistGet ep eps) = some link := h1
        cases hgs : alistGet sn sh.seasons with
        | none => rw [hgs] at h1'; exact absurd h1' (by simp)
        | some eps =>
          rw [hgs] at h1'
          have hsn : sn' ≠ sn := by
            intro hq
            rw [hq, hgs] at hin
            exact hin rfl
          show (match alistGet sn (alistSet sn' [] sh.seasons) with
              | none => none
              | some eps => alistGet ep eps) = some link
          rw [alistGet_set_ne sn sn' [] (fun hq => hsn hq.symm), hgs]
          exact h1'
      · unfold lookupEpisode
        rw [alistGet_modify_ne id id' _ (fun hq => hid hq.symm)]
        exact h1

theorem processShow_epUntouched (only : Option (List String)) (data : List Torrent)
    (id : String) (sn ep : Nat) (link : String) (st : OrchState) (id' : String)
    (h : epUntouched id sn ep link st) :
    epUntouched id sn ep link (processShow only data st id') := by
  unfold processShow
  split
  · exact h
  · rename_i sh hg
    split
    · exact h
    · split
      · exact h
      · exact foldl_preserves (epUntouched id sn ep link) (processSeason data id')
          (fun a b ha => processSeason_epUntouched data id sn ep link id' a b ha)
          (seasons_in_feed data id') st h

/-- C4: an episode whose key is already present in the document's
Seasons/Episodes mapping is never touched by the download loop: the
selector is never run at its iteration position, no link is submitted
to the sink at it, and its stored link is not overwritten. -/
theorem download_loop_skips_recorded_episode (only : Option (List String))
    (data : List Torrent) (doc : CacheDoc) (m : Shows) (hm : doc.shows = some m)
    (id : String) (sn ep : Nat) (link : String)
    (h : lookupEpisode m id sn ep = some link) :
    ∃ st, download_loop only data doc = Except.ok st ∧
      lookupEpisode st.shows id sn ep = some link ∧
      ∀ e ∈ st.events, eventEpisodeKey e ≠ (id, sn, ep) := by
  unfold download_loop
  rw [hm]
  refine ⟨_, rfl, ?_⟩
  have hinv : epUntouched id sn ep link
      { shows := m, events := [], cache_update := false } :=
    ⟨h, fun e he => absurd he (List.not_mem_nil e)⟩
  exact foldl_preserves (epUntouched id sn ep link) (processShow only data)
    (fun a b ha => processShow_epUntouched only data id sn ep link a b ha)
    (m.map (fun p => p.1)) _ hinv

/-- Witness for C4: a document already recording episode (1, 2) of show
`300`, with feed data offering a fresh release for exactly that episode:
the loop leaves the stored link intact and emits no event for the key. -/
def c4_entry : ShowEntry :=
  { url := "u", title := "Show A", seasons := [(1, [(2, "magnet:old")])], status := "active" }

def c4_doc : CacheDoc := { version := some 2, shows := some [("300", c4_entry)] }

def c4_data : List Torrent :=
  [{ filename := "Show.A.S01E02.1080p.HEVC.mkv", magnet_url := "magnet:new", seeds := 50,
     imdb_id := "300", season := 1, episode := 2 }]

theorem download_loop_skips_recorded_episode_witness :
    ∃ st, download_loop none c4_data c4_doc = Except.ok st ∧
      lookupEpisode st.shows "300" 1 2 = some "magnet:old" ∧
      ∀ e ∈ st.events, eventEpisodeKey e ≠ ("300", 1, 2) :=
  download_loop_skips_recorded_episode none c4_data c4_doc [("300", c4_entry)] rfl
    "300" 1 2 "magnet:old" (by rfl)

/-! ### C5: inactive shows are never touched -/

/-- The C5 invariant: the show entry of `id` is intact and no trace
event concerns `id`. -/
def showUntouched (id : String) (entry : ShowEntry) (st : OrchState) : Prop :=
  alistGet id st.shows = some entry ∧ ∀ e ∈ st.events, eventShowId e ≠ id

theorem processEpisode_showUntouched (data : List Torrent) (id : String) (entry : ShowEntry)
    (id' : String) (sn' : Nat) (hne : id' ≠ id) (st : OrchState) (ep' : Nat)
    (h : showUntouched id entry st) :
    showUntouched id entry (processEpisode data id' sn' st ep') := by
  obtain ⟨h1, h2⟩ := h
  unfold processEpisode
  split
  · exact ⟨h1, h2⟩
  · split
    · exact ⟨h1, h2⟩
    · split
      · exact ⟨h1, h2⟩
      · split
        · refine ⟨h1, ?_⟩
          intro e he
          rcases List.mem_append.mp he with hm | hm
          · exact h2 e hm
          · rcases List.mem_singleton.mp hm with rfl
            exact fun hq => hne hq
        · rename_i bl hb
          refine ⟨?_, ?_⟩
          · show alistGet id (setEpisode st.shows id' sn' ep' bl.magnet_link) = some entry
            unfold setEpisode
            rw [alistGet_modify_ne id id' _ (fun hq => hne hq.symm)]
            exact h1
          · intro e he
            rcases List.mem_append.mp he with hm | hm
            · exact h2 e hm
            · rcases List.mem_cons.mp hm with rfl | hm'
              · exact fun hq => hne hq
              · rcases List.mem_singleton.mp hm' with rfl
                exact fun hq => hne hq

theorem processSeason_showUntouched (data : List Torrent) (id : String) (entry : ShowEntry)
    (id' : String) (hne : id' ≠ id) (st : OrchState) (sn' : Nat)
    (h : showUntouched id entry st) :
    showUntouched id entry (processSeason data id' st sn') := by
  obtain ⟨h1, h2⟩ := h
  unfold processSeason
  apply foldl_preserves (showUntouched id entry) (processEpisode data id' sn')
    (fun a b ha => processEpisode_showUntouched data id entry id' sn' hne a b ha)
  split
  · exact ⟨h1, h2⟩
  · split
    · exact ⟨h1, h2⟩
    · refine ⟨?_, h2⟩
      show alistGet id (ensureSeason st.shows id' sn') = some entry
      unfold ensureSeason
      rw [alistGet_modify_ne id id' _ (fun hq => hne hq.symm)]
      exact h1

theorem processShow_showUntouched (only : Option (List String)) (data : List Torrent)
    (id : String) (entry : ShowEntry) (hact : entry.status ≠ "active")
    (st : OrchState) (id' : String) (h : showUntouched id entry st) :
    showUntouched id entry (processShow only data st id') := by
  obtain ⟨h1, h2⟩ := h
  unfold processShow
  split
  · exact ⟨h1, h2⟩
  · rename_i sh hg
    split
    · exact ⟨h1, h2⟩
    · rename_i hact'
      split
      · exact ⟨h1, h2⟩
      · have hid : id' ≠ id := by
          intro hq
          subst hq
          rw [h1] at hg
          have hsh : sh = entry := by
            have := hg
            injection this with hinj
            exact hinj.symm
          subst hsh
          exact hact' hact
        exact foldl_preserves (showUntouched id entry) (processSeason data id')
          (fun a b ha => processSeason_showUntouched data id entry id' hid a b ha)
          (seasons_in_feed data id') st ⟨h1, h2⟩

/-- C5: a show whose status is not `active` is never touched by the
download loop, even when the fetched feed contains releases for its id:
no link is submitted to the sink for it (no trace event concerns it)
and no episode entry is added under it (its entry is unchanged). -/
theorem download_loop_skips_inactive_show (only : Option (List String))
    (data : List Torrent) (doc : CacheDoc) (m : Shows) (hm : doc.shows = some m)
    (id : String) (entry : ShowEntry) (hshow : alistGet id m = some entry)
    (hact : entry.status ≠ "active") (_hdata : ∃ t ∈ data, t.imdb_id = id) :
    ∃ st, download_loop only data doc = Except.ok st ∧
      alistGet id st.shows = some entry ∧
      ∀ e ∈ st.events, eventShowId e ≠ id := by
  unfold download_loop
  rw [hm]
  refine ⟨_, rfl, ?_⟩
  have hinv : showUntouched id entry
      { shows := m, events := [], cache_update := false } :=
    ⟨hshow, fun e he => absurd he (List.not_mem_nil e)⟩
  exact foldl_preserves (showUntouched id entry) (processShow only data)
    (fun a b ha => processShow_showUntouched only data id entry hact a b ha)
    (m.map (fun p => p.1)) _ hinv

/-- Witness for C5: an inactive show alongside feed data for its id:
its entry is unchanged and no event concerns it. -/
def c5_entry : ShowEntry :=
  { url := "u", title := "Show B", seasons := [], status := "inactive" }

def c5_doc : CacheDoc := { version := some 2, shows := some [("400", c5_entry)] }

def c5_data : List Torrent :=
  [{ filename := "Show.B.S02E03.720p.x264.mkv", magnet_url := "magnet:b", seeds := 4,
     imdb_id := "400", season := 2, episode := 3 }]

theorem download_loop_skips_inactive_show_witness :
    ∃ st, download_loop none c5_data c5_doc = Except.ok st ∧
      alistGet "400" st.shows = some c5_entry ∧
      ∀ e ∈ st.events, eventShowId e ≠ "400" :=
  download_loop_skips_inactive_show none c5_data c5_doc [("400", c5_entry)] rfl
    "400" c5_entry (by rfl) (by decide) ⟨c5_data.head (by decide), by decide, by decide⟩

/-! ### C10: the fresh cache breaks the document-reading operations -/

/-- C10: `read_cache` on a missing cache file returns the empty document
`{}`; the download loop of `main` (which never invokes `convert_cache`),
`add_shows` with at least one id, and `purge_shows` with at least one id
all read the `shows` key of that empty document unconditionally and
raise `KeyError`. -/
theorem fresh_cache_raises_key_error :
    read_cache [] = emptyCacheDoc ∧
      (∀ only data, download_loop only data emptyCacheDoc = Except.error PyErr.keyError) ∧
      (∀ ids meta, ids ≠ [] →
        add_shows emptyCacheDoc ids meta = Except.error PyErr.keyError) ∧
      (∀ ids, ids ≠ [] →
        purge_shows emptyCacheDoc ids = Except.error PyErr.keyError) := by
  refine ⟨rfl, fun only data => rfl, ?_, ?_⟩
  · intro ids meta hne
    cases ids with
    | nil => exact absurd rfl hne
    | cons a rest => rfl
  · intro ids hne
    cases ids with
    | nil => exact absurd rfl hne
    | cons a rest => rfl

/-- Witness for C10: concrete nonempty id lists raise `KeyError` on the
fresh empty document. -/
theorem fresh_cache_raises_key_error_witness :
    add_shows emptyCacheDoc ["0944947"] (fun _ => none) = Except.error PyErr.keyError ∧
      purge_shows emptyCacheDoc ["0944947"] = Except.error PyErr.keyError :=
  ⟨fresh_cache_raises_key_error.2.2.1 ["0944947"] (fun _ => none) (by decide),
    fresh_cache_raises_key_error.2.2.2 ["0944947"] (by decide)⟩

end Eztv
